import Mathlib

/-!
Verification of the retrieval-fusion and batched-reranking engine of the
vector_search repository, against its specification.

The embedding models the pure computational core of the repository:

* `app/hybrid_search.py` — `HybridSearchService.calculate_rrf` and the
  failure structure of `HybridSearchService.search`;
* `app/hybrid_search_bm25.py` — the BM25 variant of the same two functions;
* `app/rerank.py` — `RerankService.rerank` from its `candidates` list onward,
  with the LLM collaborator's behaviour as an explicit parameter;
* `app/search.py` — the score-normalization loop of `VectorSearch.search`.

Python floats are modelled as rationals; database rows and LLM call
outcomes are passed in as explicit values, since the I/O that produces them
is owned by external collaborators.
-/

/-- `SearchResult` of `app/models.py` (table_name, score). -/
structure SearchResult where
  table_name : String
  score : ℚ
deriving Repr, DecidableEq

/-- `RerankResult` of `app/models.py` (table_name, LLM relevance score). -/
structure RerankResult where
  table_name : String
  score : ℚ
deriving Repr, DecidableEq

/-- `HybridSearchResult` of `app/models.py`: fused RRF score plus the
per-source ranks (`none` when the source did not return the table). -/
structure HybridSearchResult where
  table_name : String
  rrf_score : ℚ
  vector_rank : Option Nat
  tags_rank : Option Nat
deriving Repr, DecidableEq

/-- A candidate handed to the reranking orchestrator: one row of the
`candidates` list built in `RerankService.rerank` (a dict with keys
`table_name` and `description`). -/
structure RerankCandidate where
  table_name : String
  description : String
deriving Repr, DecidableEq

/-- Lookup in a Python dict built from a list of (key, value) pairs by a
dict comprehension: later pairs overwrite earlier ones, so `d.get(key)`
returns the value of the last pair with that key. -/
def dictGet? : List (String × α) → String → Option α
  | [], _ => none
  | (k, v) :: rest, key =>
    match dictGet? rest key with
    | some w => some w
    | none => if key = k then some v else none

/-- First-occurrence deduplication, with the keys already emitted carried
in `seen`. -/
def dedupFirstAux (seen : List String) : List String → List String
  | [] => []
  | a :: rest =>
    if a ∈ seen then dedupFirstAux seen rest
    else a :: dedupFirstAux (a :: seen) rest

/-- First-occurrence deduplication. Python iterates a `set` in an
unspecified hash-dependent order; the embedding fixes the order of first
appearance, a deterministic refinement of that unspecified order. -/
def dedupFirst (l : List String) : List String :=
  dedupFirstAux [] l

/-- `all_tables = set(vector_ranks.keys()) | set(tags_ranks.keys())` in
`calculate_rrf`, with the iteration order fixed as order of first
appearance (vector keys first, then tags keys). -/
def keysUnion (vector_results tags_results : List (String × Nat)) : List String :=
  dedupFirst (vector_results.map Prod.fst ++ tags_results.map Prod.fst)

/-- Stable insertion of one element into a descending-by-key list: the new
element goes after every strictly greater key and before equal keys that
occur later in the recursion (i.e. earlier insertions stay in front). -/
def insertDesc (key : α → ℚ) (a : α) : List α → List α
  | [] => [a]
  | b :: bs => if key a < key b then b :: insertDesc key a bs else a :: b :: bs

/-- Python's `list.sort(key=..., reverse=True)`: a stable descending sort.
A stable sort is unique, so straight insertion gives exactly the list
`list.sort` produces. -/
def pySortDesc (key : α → ℚ) : List α → List α
  | [] => []
  | a :: as => insertDesc key a (pySortDesc key as)

/-- One weighted reciprocal-rank term: `weight / (k + rank)` when the
source returned the table at `rank`, and the absent contribution 0
otherwise (`if rank is not None: score += weight / (k + rank)`). -/
def rrfTerm (weight : ℚ) (k : Nat) : Option Nat → ℚ
  | some rank => weight / ((k : ℚ) + (rank : ℚ))
  | none => 0

/-- `HybridSearchService.calculate_rrf` (app/hybrid_search.py, lines 98-155):
build the two rank dicts, take the union of their key sets, give every
table the sum of its weighted reciprocal-rank terms, and sort descending
by fused score. Each input list holds (table_name, rank) rows. -/
def calculate_rrf (vector_results tags_results : List (String × Nat))
    (k : Nat) (vector_weight tags_weight : ℚ) : List HybridSearchResult :=
  let rrf_scores := (keysUnion vector_results tags_results).map (fun table_name =>
    let vector_rank := dictGet? vector_results table_name
    let tags_rank := dictGet? tags_results table_name
    { table_name := table_name
      rrf_score := rrfTerm vector_weight k vector_rank + rrfTerm tags_weight k tags_rank
      vector_rank := vector_rank
      tags_rank := tags_rank })
  pySortDesc (fun r => r.rrf_score) rrf_scores

/-- `HybridSearchBM25Service.calculate_rrf` (app/hybrid_search_bm25.py,
lines 106-163): a verbatim copy of `HybridSearchService.calculate_rrf`
with the keyword source named bm25; the BM25 rank is stored in the
`tags_rank` field of the result model. -/
def calculate_rrf_bm25 (vector_results bm25_results : List (String × Nat))
    (k : Nat) (vector_weight bm25_weight : ℚ) : List HybridSearchResult :=
  let rrf_scores := (keysUnion vector_results bm25_results).map (fun table_name =>
    let vector_rank := dictGet? vector_results table_name
    let bm25_rank := dictGet? bm25_results table_name
    { table_name := table_name
      rrf_score := rrfTerm vector_weight k vector_rank + rrfTerm bm25_weight k bm25_rank
      vector_rank := vector_rank
      tags_rank := bm25_rank })
  pySortDesc (fun r => r.rrf_score) rrf_scores

/-- `HybridSearchService.search` (app/hybrid_search.py, lines 157-194):
`asyncio.gather` awaits both retrieval sources and re-raises the first
exception. Each source's outcome (including the embedding call it begins
with) is modelled as an `Except` value; an exception anywhere aborts the
whole search with that originating error. -/
def HybridSearchService.search
    (vector_outcome tags_outcome : Except String (List (String × Nat)))
    (top_n : Nat) (rrf_k : Nat) (vector_weight tags_weight : ℚ) :
    Except String (List HybridSearchResult) :=
  match vector_outcome with
  | .error e => .error e
  | .ok vector_results =>
    match tags_outcome with
    | .error e => .error e
    | .ok tags_results =>
      .ok ((calculate_rrf vector_results tags_results rrf_k vector_weight tags_weight).take top_n)

/-- `HybridSearchBM25Service.search` (app/hybrid_search_bm25.py, lines
165-202): same orchestration as `HybridSearchService.search` over the
BM25 fusion. -/
def HybridSearchBM25Service.search
    (vector_outcome bm25_outcome : Except String (List (String × Nat)))
    (top_n : Nat) (rrf_k : Nat) (vector_weight bm25_weight : ℚ) :
    Except String (List HybridSearchResult) :=
  match vector_outcome with
  | .error e => .error e
  | .ok vector_results =>
    match bm25_outcome with
    | .error e => .error e
    | .ok bm25_results =>
      .ok ((calculate_rrf_bm25 vector_results bm25_results rrf_k vector_weight bm25_weight).take top_n)

/-- What one `_rerank_batch` call in `RerankService.rerank` can produce, as
seen by the batch loop. The call either throws (`self.client.generate`
raised) or yields the value `_parse_llm_response` extracted from the raw
text. A parsed entry is `some (table_name, score?)` for a JSON object with
both keys, where `score?` is `some q` for a value `float()` converts and
`none` for one on which `float()` raises; a `none` entry stands for an
element that makes the score-map comprehension itself raise (a non-dict,
or a dict missing a key) — a parse result that is not a list at all
behaves the same way and is covered by the same constructor. An
unparseable response is `responds []`, since `_parse_llm_response`
returns `[]` on `JSONDecodeError`. Entries whose `table_name` is not a
string never match a candidate's string key and are equivalent to entries
with an unused string key. -/
inductive LLMBatchOutcome where
  | throws
  | responds (entries : List (Option (String × Option ℚ)))
deriving Repr, DecidableEq

/-- `RerankService._rerank_batch` (app/rerank.py, lines 88-114): a thrown
LLM call is caught and turned into the empty list; otherwise the parsed
response is returned as is. -/
def rerank_batch (outcome : LLMBatchOutcome) : List (Option (String × Option ℚ)) :=
  match outcome with
  | .throws => []
  | .responds entries => entries

/-- The comprehension building `score_map` for one batch: `none` when some
entry raises (propagating to the outer try), otherwise the pairs in order
(lookup via `dictGet?` makes later pairs overwrite earlier ones, as in a
Python dict). -/
def buildScoreMap : List (Option (String × Option ℚ)) → Option (List (String × Option ℚ))
  | [] => some []
  | none :: _ => none
  | some e :: rest => (buildScoreMap rest).map (fun m => e :: m)

/-- The per-candidate loop of one batch:
`float(score_map.get(table_name, 0.0))`. A missing table gets the default
0.0; a present table whose stored score `float()` cannot convert raises,
which the model signals with `none`. -/
def batchResults (score_map : List (String × Option ℚ)) :
    List RerankCandidate → Option (List RerankResult)
  | [] => some []
  | c :: cs => do
    let llm_score ←
      match dictGet? score_map c.table_name with
      | none => some (0 : ℚ)
      | some v => v
    let rest ← batchResults score_map cs
    pure ({ table_name := c.table_name, score := llm_score } :: rest)

/-- `BATCH_SIZE = 25` in `RerankService.rerank`. -/
def BATCH_SIZE : Nat := 25

/-- Fueled slicing loop; the fuel only serves structural recursion and is
irrelevant as soon as it dominates the list length. -/
def toBatchesFuel (batch_size : Nat) : Nat → List α → List (List α)
  | 0, _ => []
  | _, [] => []
  | fuel + 1, a :: rest =>
    if batch_size = 0 then []
    else (a :: rest).take batch_size
      :: toBatchesFuel batch_size fuel ((a :: rest).drop batch_size)

/-- The slices `candidates[i : i + batch_size]` produced by
`range(0, len(candidates), batch_size)`. The batch size is the constant
25 in the source, so the `batch_size = 0` guard is never exercised. -/
def toBatches (batch_size : Nat) (l : List α) : List (List α) :=
  toBatchesFuel batch_size l.length l

/-- The batch loop of `RerankService.rerank` (step 3): one `_rerank_batch`
call per batch, in order; per batch, build the score map and append one
`RerankResult` per batch candidate. `llm i` is the outcome of the
`(i+1)`-th LLM call; a `none` result is an exception escaping to the
surrounding try. -/
def processBatches (llm : Nat → LLMBatchOutcome) :
    Nat → List (List RerankCandidate) → Option (List RerankResult)
  | _, [] => some []
  | i, batch :: rest => do
    let score_map ← buildScoreMap (rerank_batch (llm i))
    let batch_res ← batchResults score_map batch
    let tail ← processBatches llm (i + 1) rest
    pure (batch_res ++ tail)

/-- `RerankService.rerank` (app/rerank.py, lines 116-202) from its
`candidates` list onward: the early return on an empty candidate list,
the batch loop and the final descending sort inside the try, and the
except-branch fallback that returns every candidate with score 0.0 in
input order. -/
def RerankService.rerank (llm : Nat → LLMBatchOutcome)
    (candidates : List RerankCandidate) : List RerankResult :=
  if candidates = [] then []
  else
    match processBatches llm 0 (toBatches BATCH_SIZE candidates) with
    | some all_results => pySortDesc (fun r => r.score) all_results
    | none => candidates.map (fun c => { table_name := c.table_name, score := 0 })

/-- Round half to even at integer precision, the rule Python's `round`
applies to the exact value of its float argument. -/
def roundHalfEven (x : ℚ) : ℤ :=
  if x - ⌊x⌋ < 1 / 2 then ⌊x⌋
  else if 1 / 2 < x - ⌊x⌋ then ⌊x⌋ + 1
  else if ⌊x⌋ % 2 = 0 then ⌊x⌋ else ⌊x⌋ + 1

/-- Python's `round(x, 4)`: round half to even at the fourth decimal. -/
def pyRound4 (x : ℚ) : ℚ := (roundHalfEven (x * 10000) : ℚ) / 10000

/-- The distance-to-score conversion of `VectorSearch.search`
(app/search.py, lines 62-67): `1 - d` for cosine, `1 / (1 + d)` for L2,
and `-d` otherwise (the `else` branch is dot_product). -/
def normalizeScore (method : String) (distance : ℚ) : ℚ :=
  if method = "cosine" then 1 - distance
  else if method = "L2" then 1 / (1 + distance)
  else -distance

/-- `VectorSearch.search` (app/search.py, lines 53-73) from the fetched
rows onward: each row carries a table_name and a raw distance; the score
is the normalized distance rounded to 4 decimal places. -/
def VectorSearch.search (method : String) (rows : List (String × ℚ)) :
    List SearchResult :=
  rows.map (fun row =>
    { table_name := row.1, score := pyRound4 (normalizeScore method row.2) })

/-- The loop body of `calculate_rrf`, as a function of the table name. -/
def rrfEntry (vector_results tags_results : List (String × Nat))
    (k : Nat) (vector_weight tags_weight : ℚ) (table_name : String) :
    HybridSearchResult :=
  { table_name := table_name
    rrf_score := rrfTerm vector_weight k (dictGet? vector_results table_name)
      + rrfTerm tags_weight k (dictGet? tags_results table_name)
    vector_rank := dictGet? vector_results table_name
    tags_rank := dictGet? tags_results table_name }

/-- Renaming the two source labels in a fused result: the per-source rank
fields swap places. -/
def swapSources (r : HybridSearchResult) : HybridSearchResult :=
  { table_name := r.table_name
    rrf_score := r.rrf_score
    vector_rank := r.tags_rank
    tags_rank := r.vector_rank }

theorem calculate_rrf_eq (vres tres : List (String × Nat)) (k : Nat) (w1 w2 : ℚ) :
    calculate_rrf vres tres k w1 w2 =
      pySortDesc (fun r => r.rrf_score)
        ((keysUnion vres tres).map (rrfEntry vres tres k w1 w2)) := rfl

theorem calculate_rrf_bm25_eq (vres bres : List (String × Nat)) (k : Nat) (w1 w2 : ℚ) :
    calculate_rrf_bm25 vres bres k w1 w2 = calculate_rrf vres bres k w1 w2 := rfl

theorem mem_dedupFirstAux (seen l : List String) (x : String) :
    x ∈ dedupFirstAux seen l ↔ x ∈ l ∧ x ∉ seen := by
  induction l generalizing seen with
  | nil => simp [dedupFirstAux]
  | cons a rest ih =>
    by_cases ha : a ∈ seen
    · simp only [dedupFirstAux, if_pos ha, ih, List.mem_cons]
      constructor
      · exact fun h => ⟨Or.inr h.1, h.2⟩
      · rintro ⟨h | h, hx⟩
        · exact absurd (h ▸ ha) hx
        · exact ⟨h, hx⟩
    · simp only [dedupFirstAux, if_neg ha, List.mem_cons, ih, List.mem_cons]
      constructor
      · rintro (rfl | ⟨hx, hne⟩)
        · exact ⟨Or.inl rfl, ha⟩
        · exact ⟨Or.inr hx, fun hs => hne (Or.inr hs)⟩
      · rintro ⟨rfl | hx, hs⟩
        · exact Or.inl rfl
        · by_cases hxa : x = a
          · exact Or.inl hxa
          · exact Or.inr ⟨hx, fun h => h.elim (fun h => hxa h) hs⟩

theorem nodup_dedupFirstAux (seen l : List String) :
    (dedupFirstAux seen l).Nodup := by
  induction l generalizing seen with
  | nil => simp [dedupFirstAux]
  | cons a rest ih =>
    by_cases ha : a ∈ seen
    · simpa [dedupFirstAux, if_pos ha] using ih seen
    · simp only [dedupFirstAux, if_neg ha, List.nodup_cons]
      refine ⟨fun hmem => ?_, ih (a :: seen)⟩
      exact ((mem_dedupFirstAux _ _ _).mp hmem).2 (List.mem_cons_self a seen)

theorem mem_dedupFirst (l : List String) (x : String) :
    x ∈ dedupFirst l ↔ x ∈ l := by
  simp [dedupFirst, mem_dedupFirstAux]

theorem nodup_dedupFirst (l : List String) : (dedupFirst l).Nodup :=
  nodup_dedupFirstAux [] l

theorem mem_keysUnion (vres tres : List (String × Nat)) (x : String) :
    x ∈ keysUnion vres tres ↔ x ∈ vres.map Prod.fst ∨ x ∈ tres.map Prod.fst := by
  simp [keysUnion, mem_dedupFirst]

theorem nodup_keysUnion (vres tres : List (String × Nat)) :
    (keysUnion vres tres).Nodup :=
  nodup_dedupFirst _

theorem dictGet?_eq_none (m : List (String × α)) (key : String)
    (h : ∀ v, (key, v) ∉ m) : dictGet? m key = none := by
  induction m with
  | nil => rfl
  | cons p rest ih =>
    obtain ⟨k, v⟩ := p
    have hrest : ∀ w, (key, w) ∉ rest := fun w hw => h w (List.mem_cons_of_mem _ hw)
    have hkey : key ≠ k := by
      intro hk
      exact h v (hk ▸ List.mem_cons_self _ _)
    simp [dictGet?, ih hrest, hkey]

theorem dictGet?_append_last (m1 m2 : List (String × α)) (key : String) (v : α)
    (h : ∀ w, (key, w) ∉ m2) : dictGet? (m1 ++ (key, v) :: m2) key = some v := by
  induction m1 with
  | nil => simp [dictGet?, dictGet?_eq_none m2 key h]
  | cons p rest ih => simp [dictGet?, ih]

theorem insertDesc_perm (key : α → ℚ) (a : α) (l : List α) :
    (insertDesc key a l).Perm (a :: l) := by
  induction l with
  | nil => simp [insertDesc]
  | cons b bs ih =>
    by_cases h : key a < key b
    · simp only [insertDesc, if_pos h]
      exact ((ih.cons b).trans (List.Perm.swap a b bs))
    · simp [insertDesc, if_neg h]

theorem pySortDesc_perm (key : α → ℚ) (l : List α) :
    (pySortDesc key l).Perm l := by
  induction l with
  | nil => simp [pySortDesc]
  | cons a as ih =>
    exact (insertDesc_perm key a (pySortDesc key as)).trans (ih.cons a)

theorem pairwise_insertDesc (key : α → ℚ) (a : α) (l : List α)
    (h : l.Pairwise (fun x y => key y ≤ key x)) :
    (insertDesc key a l).Pairwise (fun x y => key y ≤ key x) := by
  induction l with
  | nil => simp [insertDesc]
  | cons b bs ih =>
    have h1 : ∀ x ∈ bs, key x ≤ key b := (List.pairwise_cons.mp h).1
    have h2 : bs.Pairwise (fun x y => key y ≤ key x) := (List.pairwise_cons.mp h).2
    by_cases hab : key a < key b
    · simp only [insertDesc, if_pos hab]
      refine List.pairwise_cons.mpr ⟨fun x hx => ?_, ih h2⟩
      rcases List.mem_cons.mp ((insertDesc_perm key a bs).mem_iff.mp hx) with rfl | hx
      · exact le_of_lt hab
      · exact h1 x hx
    · simp only [insertDesc, if_neg hab]
      push_neg at hab
      refine List.pairwise_cons.mpr ⟨fun x hx => ?_, h⟩
      rcases List.mem_cons.mp hx with rfl | hx
      · exact hab
      · exact le_trans (h1 x hx) hab

theorem pySortDesc_sorted (key : α → ℚ) (l : List α) :
    (pySortDesc key l).Pairwise (fun x y => key y ≤ key x) := by
  induction l with
  | nil => simp [pySortDesc]
  | cons a as ih => exact pairwise_insertDesc key a _ ih

theorem pySortDesc_of_const (key : α → ℚ) (c : ℚ) (l : List α)
    (h : ∀ x ∈ l, key x = c) : pySortDesc key l = l := by
  induction l with
  | nil => rfl
  | cons a as ih =>
    have has : ∀ x ∈ as, key x = c := fun x hx => h x (List.mem_cons_of_mem _ hx)
    rw [pySortDesc, ih has]
    cases as with
    | nil => rfl
    | cons b bs =>
      have hab : ¬ key a < key b := by
        rw [h a (List.mem_cons_self _ _), h b (List.mem_cons_of_mem _ (List.mem_cons_self _ _))]
        exact lt_irrefl c
      simp [insertDesc, if_neg hab]

theorem toBatchesFuel_nil (bs f : Nat) : toBatchesFuel bs f ([] : List α) = [] := by
  cases f <;> rfl

theorem toBatchesFuel_congr (bs : Nat) :
    ∀ (f1 f2 : Nat) (l : List α), l.length ≤ f1 → l.length ≤ f2 →
      toBatchesFuel bs f1 l = toBatchesFuel bs f2 l := by
  intro f1
  induction f1 with
  | zero =>
    intro f2 l h1 _
    have : l = [] := List.length_eq_zero.mp (Nat.le_zero.mp h1)
    subst this
    simp [toBatchesFuel_nil]
  | succ f ih =>
    intro f2 l h1 h2
    cases l with
    | nil => simp [toBatchesFuel_nil]
    | cons a rest =>
      cases f2 with
      | zero => simp at h2
      | succ f2' =>
        by_cases hbs : bs = 0
        · simp [toBatchesFuel, hbs]
        · simp only [toBatchesFuel, if_neg hbs]
          congr 1
          have hd : ((a :: rest).drop bs).length ≤ rest.length := by
            rw [List.length_drop, List.length_cons]
            omega
          exact ih f2' _ (le_trans hd (Nat.lt_succ_iff.mp (Nat.lt_of_lt_of_le (Nat.lt_succ_of_le (le_refl _)) h1)))
            (le_trans hd (Nat.lt_succ_iff.mp (Nat.lt_of_lt_of_le (Nat.lt_succ_of_le (le_refl _)) h2)))

theorem toBatches_cons_eq (bs : Nat) (l : List α) (hbs : bs ≠ 0) (hl : l ≠ []) :
    toBatches bs l = l.take bs :: toBatches bs (l.drop bs) := by
  cases l with
  | nil => exact absurd rfl hl
  | cons a rest =>
    show toBatchesFuel bs (rest.length + 1) (a :: rest) = _
    simp only [toBatchesFuel, if_neg hbs]
    congr 1
    refine toBatchesFuel_congr bs rest.length _ _ ?_ (le_refl _)
    rw [List.length_drop, List.length_cons]
    omega

theorem toBatchesFuel_join (bs : Nat) (hbs : bs ≠ 0) :
    ∀ (f : Nat) (l : List α), l.length ≤ f → (toBatchesFuel bs f l).flatten = l := by
  intro f
  induction f with
  | zero =>
    intro l h1
    have : l = [] := List.length_eq_zero.mp (Nat.le_zero.mp h1)
    subst this
    rfl
  | succ f ih =>
    intro l h1
    cases l with
    | nil => rfl
    | cons a rest =>
      simp only [toBatchesFuel, if_neg hbs, List.flatten_cons]
      rw [ih _ (by rw [List.length_drop, List.length_cons]; simp only [List.length_cons] at h1; omega)]
      exact List.take_append_drop bs (a :: rest)

theorem toBatches_join (bs : Nat) (hbs : bs ≠ 0) (l : List α) :
    (toBatches bs l).flatten = l :=
  toBatchesFuel_join bs hbs l.length l (le_refl _)

theorem toBatchesFuel_length_le (bs : Nat) :
    ∀ (f : Nat) (l : List α) (b : List α), b ∈ toBatchesFuel bs f l → b.length ≤ bs := by
  intro f
  induction f with
  | zero => intro l b h; simp [toBatchesFuel] at h
  | succ f ih =>
    intro l b h
    cases l with
    | nil => simp [toBatchesFuel] at h
    | cons a rest =>
      by_cases hbs : bs = 0
      · simp [toBatchesFuel, hbs] at h
      · simp only [toBatchesFuel, if_neg hbs, List.mem_cons] at h
        rcases h with rfl | h
        · rw [List.length_take]; exact min_le_left _ _
        · exact ih _ b h

theorem toBatches_length_le (bs : Nat) (l : List α) (b : List α)
    (h : b ∈ toBatches bs l) : b.length ≤ bs :=
  toBatchesFuel_length_le bs l.length l b h

theorem batchResults_names (m : List (String × Option ℚ)) :
    ∀ (cs : List RerankCandidate) (rs : List RerankResult),
      batchResults m cs = some rs →
      rs.map (fun r => r.table_name) = cs.map (fun c => c.table_name) := by
  intro cs
  induction cs with
  | nil =>
    intro rs h
    simp only [batchResults, Option.some.injEq] at h
    simp [← h]
  | cons c cs ih =>
    intro rs h
    rw [batchResults] at h
    cases hd : dictGet? m c.table_name with
    | none =>
      rw [hd] at h
      cases hr : batchResults m cs with
      | none => rw [hr] at h; simp at h
      | some rest =>
        rw [hr] at h
        simp only [Option.bind_eq_bind, Option.some_bind, Option.pure_def, Option.some.injEq] at h
        subst h
        simp [ih rest hr]
    | some v =>
      rw [hd] at h
      cases v with
      | none => simp at h
      | some s =>
        cases hr : batchResults m cs with
        | none => rw [hr] at h; simp at h
        | some rest =>
          rw [hr] at h
          simp only [Option.bind_eq_bind, Option.some_bind, Option.pure_def, Option.some.injEq] at h
          subst h
          simp [ih rest hr]

theorem batchResults_empty_map (cs : List RerankCandidate) :
    batchResults [] cs =
      some (cs.map (fun c => { table_name := c.table_name, score := (0 : ℚ) })) := by
  induction cs with
  | nil => rfl
  | cons c cs ih => simp [batchResults, dictGet?, ih]

theorem processBatches_names (llm : Nat → LLMBatchOutcome) :
    ∀ (batches : List (List RerankCandidate)) (i : Nat) (rs : List RerankResult),
      processBatches llm i batches = some rs →
      rs.map (fun r => r.table_name) = batches.flatten.map (fun c => c.table_name) := by
  intro batches
  induction batches with
  | nil =>
    intro i rs h
    simp only [processBatches, Option.some.injEq] at h
    simp [← h]
  | cons b rest ih =>
    intro i rs h
    rw [processBatches] at h
    cases hm : buildScoreMap (rerank_batch (llm i)) with
    | none => rw [hm] at h; simp at h
    | some score_map =>
      rw [hm] at h
      simp only [Option.bind_eq_bind, Option.some_bind] at h
      cases hb : batchResults score_map b with
      | none => rw [hb] at h; simp at h
      | some batch_res =>
        rw [hb] at h
        simp only [Option.bind_eq_bind, Option.some_bind] at h
        cases ht : processBatches llm (i + 1) rest with
        | none => rw [ht] at h; simp at h
        | some tail =>
          rw [ht] at h
          simp only [Option.bind_eq_bind, Option.some_bind, Option.pure_def, Option.some.injEq] at h
          rw [← h]
          simp [batchResults_names score_map b batch_res hb, ih (i + 1) tail ht]

theorem processBatches_throws (llm : Nat → LLMBatchOutcome)
    (h : ∀ i, llm i = .throws) :
    ∀ (batches : List (List RerankCandidate)) (i : Nat),
      processBatches llm i batches =
        some (batches.flatten.map
          (fun c => { table_name := c.table_name, score := (0 : ℚ) })) := by
  intro batches
  induction batches with
  | nil => intro i; simp [processBatches]
  | cons b rest ih =>
    intro i
    rw [processBatches, h i]
    show (buildScoreMap (rerank_batch .throws)).bind _ = _
    simp only [rerank_batch, buildScoreMap, Option.some_bind]
    rw [batchResults_empty_map b]
    simp only [Option.some_bind, ih (i + 1), Option.some_bind]
    simp

theorem processBatches_congr (llm llm2 : Nat → LLMBatchOutcome) :
    ∀ (batches : List (List RerankCandidate)) (i : Nat),
      (∀ j, j < batches.length → llm (i + j) = llm2 (i + j)) →
      processBatches llm i batches = processBatches llm2 i batches := by
  intro batches
  induction batches with
  | nil => intro i _; rfl
  | cons b rest ih =>
    intro i h
    rw [processBatches, processBatches]
    have h0 : llm i = llm2 i := by
      have := h 0 (by simp)
      simpa using this
    rw [h0, ih (i + 1) (fun j hj => by
      have := h (j + 1) (by simpa using Nat.succ_lt_succ hj)
      simpa [Nat.add_assoc, Nat.add_comm 1 j] using this)]

theorem toBatches_nil (bs : Nat) : toBatches bs ([] : List α) = [] := rfl

/-- C2: for every candidate list and every behaviour of the LLM
collaborator (success, partial response, unparseable response, or thrown
exception), the identifiers returned by `RerankService.rerank` from its
candidates onward are exactly the candidate identifiers, one result per
candidate, so the output length equals the candidate count. -/
theorem C2_rerank_completeness (llm : Nat → LLMBatchOutcome)
    (candidates : List RerankCandidate) :
    ((RerankService.rerank llm candidates).map (fun r => r.table_name)).Perm
      (candidates.map (fun c => c.table_name)) ∧
    (RerankService.rerank llm candidates).length = candidates.length := by
  have hperm : ((RerankService.rerank llm candidates).map (fun r => r.table_name)).Perm
      (candidates.map (fun c => c.table_name)) := by
    rw [RerankService.rerank]
    by_cases hc : candidates = []
    · subst hc; simp
    · rw [if_neg hc]
      cases hp : processBatches llm 0 (toBatches BATCH_SIZE candidates) with
      | none =>
        have heq : ((candidates.map (fun c =>
            ({ table_name := c.table_name, score := (0 : ℚ) } : RerankResult))).map
              (fun r => r.table_name)) = candidates.map (fun c => c.table_name) := by
          simp
        rw [heq]
      | some all_results =>
        have hnames := processBatches_names llm _ 0 all_results hp
        rw [toBatches_join BATCH_SIZE (by decide) candidates] at hnames
        have hsort := (pySortDesc_perm (fun r => r.score) all_results).map
          (fun r => r.table_name)
        rw [hnames] at hsort
        exact hsort
  refine ⟨hperm, ?_⟩
  have := hperm.length_eq
  simpa using this

/-- C3: if the LLM collaborator throws on every batch call, rerank returns
one result per candidate with score exactly 0.0, in the candidates' input
order (the stable sort leaves the all-equal scores untouched). -/
theorem C3_total_llm_failure (llm : Nat → LLMBatchOutcome)
    (candidates : List RerankCandidate) (h : ∀ i, llm i = .throws) :
    RerankService.rerank llm candidates =
      candidates.map (fun c => { table_name := c.table_name, score := (0 : ℚ) }) := by
  rw [RerankService.rerank]
  by_cases hc : candidates = []
  · subst hc; simp
  · rw [if_neg hc, processBatches_throws llm h _ 0]
    show pySortDesc (fun (r : RerankResult) => r.score)
        ((toBatches BATCH_SIZE candidates).flatten.map
          (fun c => ({ table_name := c.table_name, score := (0 : ℚ) } : RerankResult))) = _
    rw [toBatches_join BATCH_SIZE (by decide) candidates]
    refine pySortDesc_of_const _ 0 _ ?_
    intro x hx
    rw [List.mem_map] at hx
    obtain ⟨c, _, rfl⟩ := hx
    rfl

/-- C3 witness: a two-candidate run against an always-throwing collaborator
returns both candidates with score 0.0 in input order. -/
theorem C3_total_llm_failure_witness :
    RerankService.rerank (fun _ => .throws)
        [{ table_name := "a", description := "da" },
         { table_name := "b", description := "db" }] =
      [{ table_name := "a", score := (0 : ℚ) },
       { table_name := "b", score := (0 : ℚ) }] := by
  have := C3_total_llm_failure (fun _ => .throws)
    [{ table_name := "a", description := "da" },
     { table_name := "b", description := "db" }] (fun _ => rfl)
  simpa using this

/-- C6: rerank partitions its candidates into contiguous batches of at
most `BATCH_SIZE` elements preserving input order (flattening the batches
restores the candidate list); the batch loop consults the LLM collaborator
exactly once per batch (its result depends on the collaborator only at the
batch indices); and 60 candidates yield exactly the batch sizes
25, 25, 10. -/
theorem C6_batch_partition :
    (∀ (candidates : List RerankCandidate),
        (toBatches BATCH_SIZE candidates).flatten = candidates ∧
        ∀ b ∈ toBatches BATCH_SIZE candidates, b.length ≤ BATCH_SIZE) ∧
    (∀ (candidates : List RerankCandidate) (llm llm2 : Nat → LLMBatchOutcome),
        (∀ i, i < (toBatches BATCH_SIZE candidates).length → llm i = llm2 i) →
        processBatches llm 0 (toBatches BATCH_SIZE candidates)
          = processBatches llm2 0 (toBatches BATCH_SIZE candidates)) ∧
    (∀ (candidates : List RerankCandidate), candidates.length = 60 →
        (toBatches BATCH_SIZE candidates).map List.length = [25, 25, 10]) := by
  refine ⟨fun candidates => ⟨toBatches_join _ (by decide) _,
    fun b hb => toBatches_length_le _ _ _ hb⟩, ?_, ?_⟩
  · intro candidates llm llm2 h
    exact processBatches_congr llm llm2 _ 0
      (fun j hj => by simpa using h j (by simpa using hj))
  · intro candidates h60
    have h1 : candidates ≠ [] := by
      intro h
      rw [h] at h60
      simp at h60
    rw [toBatches_cons_eq BATCH_SIZE candidates (by decide) h1]
    have hd1 : (candidates.drop BATCH_SIZE).length = 35 := by
      rw [List.length_drop, h60]; rfl
    have h2 : candidates.drop BATCH_SIZE ≠ [] := by
      intro h
      rw [h] at hd1
      simp at hd1
    rw [toBatches_cons_eq BATCH_SIZE _ (by decide) h2]
    have hd2 : ((candidates.drop BATCH_SIZE).drop BATCH_SIZE).length = 10 := by
      rw [List.length_drop, hd1]; rfl
    have h3 : (candidates.drop BATCH_SIZE).drop BATCH_SIZE ≠ [] := by
      intro h
      rw [h] at hd2
      simp at hd2
    rw [toBatches_cons_eq BATCH_SIZE _ (by decide) h3]
    have hd3 : (((candidates.drop BATCH_SIZE).drop BATCH_SIZE).drop BATCH_SIZE) = [] :=
      List.eq_nil_of_length_eq_zero (by rw [List.length_drop, hd2]; rfl)
    rw [hd3, toBatches_nil]
    simp [List.length_take, h60, hd1, hd2, BATCH_SIZE]

/-- C6 witness: a concrete 60-candidate list is cut into batches of sizes
25, 25, 10 whose concatenation is the original list. -/
theorem C6_batch_partition_witness :
    (toBatches BATCH_SIZE ((List.range 60).map
        (fun i => ({ table_name := toString i, description := "" } : RerankCandidate)))).flatten =
      (List.range 60).map (fun i => ({ table_name := toString i, description := "" } : RerankCandidate)) ∧
    (toBatches BATCH_SIZE ((List.range 60).map
        (fun i => ({ table_name := toString i, description := "" } : RerankCandidate)))).map List.length =
      [25, 25, 10] :=
  ⟨(C6_batch_partition.1 _).1,
   C6_batch_partition.2.2 _ (by simp)⟩

/-- C9: when the parsed LLM response lists the same identifier twice with
different scores, the score map keeps the last occurrence (later entries
overwrite earlier ones, as in the dict comprehension), and the candidate
still appears exactly once in the output. -/
theorem C9_duplicate_identifier_last_wins :
    (∀ (c : RerankCandidate) (llm : Nat → LLMBatchOutcome) (s1 s2 : ℚ),
        llm 0 = .responds [some (c.table_name, some s1), some (c.table_name, some s2)] →
        RerankService.rerank llm [c] = [{ table_name := c.table_name, score := s2 }]) ∧
    (∀ (m1 m2 : List (String × Option ℚ)) (key : String) (v : Option ℚ),
        (∀ w, (key, w) ∉ m2) → dictGet? (m1 ++ (key, v) :: m2) key = some v) := by
  refine ⟨?_, fun m1 m2 key v h => dictGet?_append_last m1 m2 key v h⟩
  intro c llm s1 s2 h
  rw [RerankService.rerank, if_neg (by simp)]
  have hb : toBatches BATCH_SIZE [c] = [[c]] := by
    rw [toBatches_cons_eq BATCH_SIZE [c] (by decide) (by simp)]
    simp [toBatches_nil, BATCH_SIZE]
  rw [hb, processBatches, h]
  simp [rerank_batch, buildScoreMap, batchResults, dictGet?, processBatches,
    pySortDesc, insertDesc]

/-- C9 witness: one candidate scored twice in the same parsed array ends
with the second score, appearing once. -/
theorem C9_duplicate_identifier_last_wins_witness :
    RerankService.rerank
        (fun _ => .responds [some ("t", some (3 / 10)), some ("t", some (7 / 10))])
        [{ table_name := "t", description := "d" }] =
      [{ table_name := "t", score := 7 / 10 }] ∧
    dictGet? ([] ++ ("t", some (1 : ℚ)) :: [("u", some 2)]) "t" = some (some 1) :=
  ⟨C9_duplicate_identifier_last_wins.1
      { table_name := "t", description := "d" } _ (3 / 10) (7 / 10) rfl,
   C9_duplicate_identifier_last_wins.2 [] [("u", some 2)] "t" (some 1)
      (by intro w hw; simp at hw)⟩

theorem calculate_rrf_names_perm (vres tres : List (String × Nat))
    (k : Nat) (w1 w2 : ℚ) :
    ((calculate_rrf vres tres k w1 w2).map (fun r => r.table_name)).Perm
      (keysUnion vres tres) := by
  rw [calculate_rrf_eq]
  have hp := (pySortDesc_perm (fun (r : HybridSearchResult) => r.rrf_score)
    ((keysUnion vres tres).map (rrfEntry vres tres k w1 w2))).map
      (fun r => r.table_name)
  have heq : (((keysUnion vres tres).map (rrfEntry vres tres k w1 w2)).map
      (fun r => r.table_name)) = keysUnion vres tres := by
    rw [List.map_map]
    have hcomp : ((fun (r : HybridSearchResult) => r.table_name)
        ∘ rrfEntry vres tres k w1 w2) = id := by
      funext n
      rfl
    rw [hcomp, List.map_id]
  rw [heq] at hp
  exact hp

/-- C7: if either retrieval source's call fails (including the embedding
call the source begins with), the whole hybrid search fails with one of
the originating errors, in both hybrid services; a failed source is never
silently treated as an empty ranking. -/
theorem C7_source_failure_is_fatal
    (vector_outcome tags_outcome : Except String (List (String × Nat)))
    (top_n rrf_k : Nat) (w1 w2 : ℚ)
    (h : (∃ e, vector_outcome = .error e) ∨ (∃ e, tags_outcome = .error e)) :
    (∃ e, HybridSearchService.search vector_outcome tags_outcome top_n rrf_k w1 w2
          = .error e ∧
        (vector_outcome = .error e ∨ tags_outcome = .error e)) ∧
    (∃ e, HybridSearchBM25Service.search vector_outcome tags_outcome top_n rrf_k w1 w2
          = .error e ∧
        (vector_outcome = .error e ∨ tags_outcome = .error e)) := by
  cases hv : vector_outcome with
  | error e =>
    exact ⟨⟨e, rfl, Or.inl rfl⟩, ⟨e, rfl, Or.inl rfl⟩⟩
  | ok v =>
    cases ht : tags_outcome with
    | error e =>
      exact ⟨⟨e, rfl, Or.inr rfl⟩, ⟨e, rfl, Or.inr rfl⟩⟩
    | ok t =>
      rcases h with ⟨e, he⟩ | ⟨e, he⟩
      · rw [hv] at he
        exact absurd he (by simp)
      · rw [ht] at he
        exact absurd he (by simp)

/-- C7 witness: a failed embedding/vector call aborts the hybrid search
with that error even though the tags source succeeded. -/
theorem C7_source_failure_is_fatal_witness :
    ∃ e, HybridSearchService.search
        (.error "embedding backend unreachable") (.ok [("t1", 1)]) 10 60 (1/2) (1/2)
        = .error e ∧
      ((.error "embedding backend unreachable" :
          Except String (List (String × Nat))) = .error e ∨
        (.ok [("t1", 1)] : Except String (List (String × Nat))) = .error e) :=
  (C7_source_failure_is_fatal (.error "embedding backend unreachable")
    (.ok [("t1", 1)]) 10 60 (1/2) (1/2) (Or.inl ⟨_, rfl⟩)).1

/-- C4: the fusion output has exactly one entry per identifier in the
union of the two sources' identifier sets — no duplicates, no identifier
dropped, none invented — and its length is the cardinality of that union;
the BM25 variant computes the identical fusion. -/
theorem C4_fusion_completeness (vres tres : List (String × Nat))
    (k : Nat) (w1 w2 : ℚ) :
    ((calculate_rrf vres tres k w1 w2).map (fun r => r.table_name)).Nodup ∧
    (∀ n, n ∈ (calculate_rrf vres tres k w1 w2).map (fun r => r.table_name) ↔
        (n ∈ vres.map Prod.fst ∨ n ∈ tres.map Prod.fst)) ∧
    (calculate_rrf vres tres k w1 w2).length =
      ((vres.map Prod.fst).toFinset ∪ (tres.map Prod.fst).toFinset).card ∧
    calculate_rrf_bm25 vres tres k w1 w2 = calculate_rrf vres tres k w1 w2 := by
  have hperm := calculate_rrf_names_perm vres tres k w1 w2
  refine ⟨hperm.nodup_iff.mpr (nodup_keysUnion vres tres),
    fun n => hperm.mem_iff.trans (mem_keysUnion vres tres n), ?_, rfl⟩
  have hf : (keysUnion vres tres).toFinset =
      (vres.map Prod.fst).toFinset ∪ (tres.map Prod.fst).toFinset := by
    ext x
    simp [mem_keysUnion]
  calc (calculate_rrf vres tres k w1 w2).length
      = ((calculate_rrf vres tres k w1 w2).map (fun r => r.table_name)).length := by
        rw [List.length_map]
    _ = (keysUnion vres tres).length := hperm.length_eq
    _ = (keysUnion vres tres).toFinset.card :=
        (List.toFinset_card_of_nodup (nodup_keysUnion vres tres)).symm
    _ = ((vres.map Prod.fst).toFinset ∪ (tres.map Prod.fst).toFinset).card := by
        rw [hf]

/-- C1 counterexample: in the claim's concrete scenario, t2 has vector
rank 2 and tags rank 1, so its fused score is 0.5/62 + 0.5/61, not the
0.5/61 + 0.5/61 the claim asserts; the order t2, t1, t3 holds. -/
theorem C1_rrf_scenario_counterexample :
    ((calculate_rrf [("t1", 1), ("t2", 2)] [("t2", 1), ("t3", 2)] 60 (1/2) (1/2)).map
        (fun r => (r.table_name, r.rrf_score)) =
      [("t2", 1/2/62 + 1/2/61), ("t1", 1/2/61), ("t3", 1/2/62)]) ∧
    ((1 : ℚ)/2/62 + 1/2/61 ≠ 1/2/61 + 1/2/61) := by
  constructor
  · simp [calculate_rrf, keysUnion, dedupFirst, dedupFirstAux, dictGet?, rrfTerm,
      pySortDesc, insertDesc]
    norm_num [insertDesc]
  · norm_num

/-- C1 (amended): for every pair of rank mappings, every k and
non-negative weights, calculate_rrf assigns each identifier in the union
the score weightA/(k+rankA) if present in source A else 0, plus
weightB/(k+rankB) if present in source B else 0, and returns the results
sorted descending by that score; in the concrete scenario the scores are
t2 = 0.5/62 + 0.5/61, t1 = 0.5/61, t3 = 0.5/62 and the order is
t2, t1, t3. -/
theorem C1_rrf_amended (vres tres : List (String × Nat)) (k : Nat) (w1 w2 : ℚ)
    (hw1 : 0 ≤ w1) (hw2 : 0 ≤ w2) :
    (∀ r ∈ calculate_rrf vres tres k w1 w2,
        r.rrf_score = rrfTerm w1 k (dictGet? vres r.table_name)
          + rrfTerm w2 k (dictGet? tres r.table_name)) ∧
    (∀ n, n ∈ (calculate_rrf vres tres k w1 w2).map (fun r => r.table_name) ↔
        (n ∈ vres.map Prod.fst ∨ n ∈ tres.map Prod.fst)) ∧
    (calculate_rrf vres tres k w1 w2).Pairwise
      (fun a b => b.rrf_score ≤ a.rrf_score) ∧
    ((calculate_rrf [("t1", 1), ("t2", 2)] [("t2", 1), ("t3", 2)] 60 (1/2) (1/2)).map
        (fun r => (r.table_name, r.rrf_score)) =
      [("t2", 1/2/62 + 1/2/61), ("t1", 1/2/61), ("t3", 1/2/62)]) := by
  refine ⟨?_, fun n => (calculate_rrf_names_perm vres tres k w1 w2).mem_iff.trans
      (mem_keysUnion vres tres n), ?_, ?_⟩
  · intro r hr
    rw [calculate_rrf_eq] at hr
    have hr2 := (pySortDesc_perm (fun (x : HybridSearchResult) => x.rrf_score)
      ((keysUnion vres tres).map (rrfEntry vres tres k w1 w2))).mem_iff.mp hr
    obtain ⟨n, _, rfl⟩ := List.mem_map.mp hr2
    rfl
  · rw [calculate_rrf_eq]
    exact pySortDesc_sorted _ _
  · simp [calculate_rrf, keysUnion, dedupFirst, dedupFirstAux, dictGet?, rrfTerm,
      pySortDesc, insertDesc]
    norm_num [insertDesc]

/-- C1 witness: the amended theorem applied with both weights 1/2, which
are non-negative, at the claim's concrete scenario. -/
theorem C1_rrf_amended_witness :
    (0 : ℚ) ≤ 1/2 ∧
    ((calculate_rrf [("t1", 1), ("t2", 2)] [("t2", 1), ("t3", 2)] 60 (1/2) (1/2)).map
        (fun r => (r.table_name, r.rrf_score)) =
      [("t2", 1/2/62 + 1/2/61), ("t1", 1/2/61), ("t3", 1/2/62)]) :=
  ⟨by norm_num,
   (C1_rrf_amended [("t1", 1), ("t2", 2)] [("t2", 1), ("t3", 2)] 60 (1/2) (1/2)
      (by norm_num) (by norm_num)).2.2.2⟩

/-- C8 counterexample: with one table per source and equal weights, both
entries tie at 1/122; the fixed iteration-plus-stable-sort order puts each
side's vector-source table first, so the two fused lists differ as lists
even after renaming the source labels. -/
theorem C8_symmetry_counterexample :
    calculate_rrf [("a", 1)] [("b", 1)] 60 (1/2) (1/2) ≠
      (calculate_rrf [("b", 1)] [("a", 1)] 60 (1/2) (1/2)).map swapSources := by
  simp [calculate_rrf, keysUnion, dedupFirst, dedupFirstAux, dictGet?, rrfTerm,
    pySortDesc, insertDesc, swapSources]

/-- C8 (amended): fusion is symmetric up to the order of tied scores: for
all inputs and non-negative weights, fuse(A,B,k,w1,w2) is a permutation of
fuse(B,A,k,w2,w1) with the per-source rank fields swapped — every
identifier gets the same fused score and swapped ranks — and both sides
are sorted descending, so they can differ only in the relative order of
entries with equal fused scores. -/
theorem C8_symmetry_amended (A B : List (String × Nat)) (k : Nat) (w1 w2 : ℚ)
    (hw1 : 0 ≤ w1) (hw2 : 0 ≤ w2) :
    (calculate_rrf A B k w1 w2).Perm
      ((calculate_rrf B A k w2 w1).map swapSources) := by
  have h1 : (calculate_rrf A B k w1 w2).Perm
      ((keysUnion A B).map (rrfEntry A B k w1 w2)) := by
    rw [calculate_rrf_eq]
    exact pySortDesc_perm _ _
  have h2 : ((calculate_rrf B A k w2 w1).map swapSources).Perm
      (((keysUnion B A).map (rrfEntry B A k w2 w1)).map swapSources) := by
    rw [calculate_rrf_eq]
    exact (pySortDesc_perm _ _).map swapSources
  have h3 : (((keysUnion B A).map (rrfEntry B A k w2 w1)).map swapSources)
      = (keysUnion B A).map (rrfEntry A B k w1 w2) := by
    rw [List.map_map]
    refine List.map_congr_left ?_
    intro n _
    simp [swapSources, rrfEntry, add_comm]
  rw [h3] at h2
  have h4 : (keysUnion A B).Perm (keysUnion B A) := by
    refine (List.perm_ext_iff_of_nodup (nodup_keysUnion _ _)
      (nodup_keysUnion _ _)).mpr ?_
    intro x
    rw [mem_keysUnion, mem_keysUnion]
    exact or_comm
  exact h1.trans ((h4.map (rrfEntry A B k w1 w2)).trans h2.symm)

/-- C8 witness: the amended symmetry applied at the tied-score
counterexample input with non-negative weights. -/
theorem C8_symmetry_amended_witness :
    (0 : ℚ) ≤ 1/2 ∧
    (calculate_rrf [("a", 1)] [("b", 1)] 60 (1/2) (1/2)).Perm
      ((calculate_rrf [("b", 1)] [("a", 1)] 60 (1/2) (1/2)).map swapSources) :=
  ⟨by norm_num,
   C8_symmetry_amended [("a", 1)] [("b", 1)] 60 (1/2) (1/2)
      (by norm_num) (by norm_num)⟩

/-- C5 counterexample: under cosine with distance 0.123456 the returned
score is the 4-decimal rounding 0.8765, not the exact 1 - distance
= 0.876544 the claim asserts. -/
theorem C5_normalization_counterexample :
    VectorSearch.search "cosine" [("t", 123456/1000000)] =
      [{ table_name := "t", score := 8765/10000 }] ∧
    (8765/10000 : ℚ) ≠ 1 - 123456/1000000 := by
  constructor
  · simp [VectorSearch.search, normalizeScore, pyRound4, roundHalfEven]
    norm_num [Int.fract]
  · norm_num

/-- C5 (amended): every returned row's score is the metric-specific
normalization of the raw distance — cosine gives 1 - distance, L2 gives
1 / (1 + distance), dot_product gives -distance — rounded to 4 decimal
places; the claim's concrete instances are exact at 4 decimals: distance
0.2 under cosine yields 0.8, distance 1.0 under L2 yields 0.5, and
distance -0.9 under dot_product yields 0.9. -/
theorem C5_normalization_amended (rows : List (String × ℚ)) :
    VectorSearch.search "cosine" rows =
      rows.map (fun row => { table_name := row.1, score := pyRound4 (1 - row.2) }) ∧
    VectorSearch.search "L2" rows =
      rows.map (fun row => { table_name := row.1, score := pyRound4 (1 / (1 + row.2)) }) ∧
    VectorSearch.search "dot_product" rows =
      rows.map (fun row => { table_name := row.1, score := pyRound4 (-row.2) }) ∧
    VectorSearch.search "cosine" [("t", 1/5)] = [{ table_name := "t", score := 4/5 }] ∧
    VectorSearch.search "L2" [("t", 1)] = [{ table_name := "t", score := 1/2 }] ∧
    VectorSearch.search "dot_product" [("t", -(9/10))] =
      [{ table_name := "t", score := 9/10 }] := by
  refine ⟨by simp [VectorSearch.search, normalizeScore],
    by simp [VectorSearch.search, normalizeScore],
    by simp [VectorSearch.search, normalizeScore], ?_, ?_, ?_⟩
  · simp [VectorSearch.search, normalizeScore, pyRound4, roundHalfEven]
    norm_num [Int.fract]
  · simp [VectorSearch.search, normalizeScore, pyRound4, roundHalfEven]
    norm_num [Int.fract]
  · simp [VectorSearch.search, normalizeScore, pyRound4, roundHalfEven]
    norm_num [Int.fract]

/-- C10: every score returned by VectorSearch.search is the 4-decimal
rounding of the metric's normalization of some row's distance, and the
rounding is observable: callers see round(score, 4), not the exact
normalized value. -/
theorem C10_scores_rounded :
    (∀ (method : String) (rows : List (String × ℚ)) (r : SearchResult),
        r ∈ VectorSearch.search method rows →
        ∃ d, (r.table_name, d) ∈ rows ∧
          r.score = pyRound4 (normalizeScore method d)) ∧
    (VectorSearch.search "cosine" [("t", 123456/1000000)]).map (fun r => r.score)
      = [8765/10000] ∧
    (8765/10000 : ℚ) ≠ normalizeScore "cosine" (123456/1000000) := by
  refine ⟨?_, ?_, ?_⟩
  · intro method rows r hr
    rw [VectorSearch.search, List.mem_map] at hr
    obtain ⟨row, hrow, rfl⟩ := hr
    exact ⟨row.2, by simpa using hrow, rfl⟩
  · simp [VectorSearch.search, normalizeScore, pyRound4, roundHalfEven]
    norm_num [Int.fract]
  · norm_num [normalizeScore]

/-- C10 witness: the membership part applied at a concrete cosine row. -/
theorem C10_scores_rounded_witness :
    ∃ d, ((("t" : String), d) ∈ [(("t" : String), (1 : ℚ)/5)]) ∧
      ({ table_name := "t", score := 4/5 } : SearchResult).score
        = pyRound4 (normalizeScore "cosine" d) :=
  C10_scores_rounded.1 "cosine" [("t", 1/5)] { table_name := "t", score := 4/5 }
    (by
      have h : VectorSearch.search "cosine" [("t", 1/5)]
          = [{ table_name := "t", score := 4/5 }] := by
        simp [VectorSearch.search, normalizeScore, pyRound4, roundHalfEven]
        norm_num [Int.fract]
      rw [h]
      exact List.mem_singleton.mpr rfl)
